import Mathlib

/-!
Verification development for the placeholder-filling document assistant
(`src/utils/docx_utils.py` and `src/app.py`).

Texts are modelled as `List Char` (`Str`).  The document container format
(python-docx `Document`) is treated as the black box the design calls for:
a document element carries a list of paragraph texts and a list of tables,
a table is a list of rows, a row a list of cells, and a cell is again a
document element.  All functions below are direct translations of the
Python source; Python dicts are modelled as insertion-ordered association
lists, `None` as `Option.none`.
-/

abbrev Str := List Char

/-- Python whitespace for `str.strip` / `\s` (space, tab, newline, return,
vertical tab, form feed). -/
def pySpace (c : Char) : Bool :=
  c == ' ' || c == '\t' || c == '\n' || c == '\r' || c == '\x0b' || c == '\x0c'

/-- `str.lstrip()` -/
def lstrip (s : Str) : Str := s.dropWhile pySpace

/-- `str.rstrip()` -/
def rstrip (s : Str) : Str := (s.reverse.dropWhile pySpace).reverse

/-- Python `str.strip()` -/
def pystrip (s : Str) : Str := rstrip (lstrip s)

/-- `markupsafe.escape` on a single character (`&`, `<`, `>`, `"`, `'`). -/
def escapeChar (c : Char) : Str :=
  if c = '&' then "&amp;".data
  else if c = '<' then "&lt;".data
  else if c = '>' then "&gt;".data
  else if c = '"' then "&#34;".data
  else if c.toNat = 39 then "&#39;".data
  else [c]

/-- `markupsafe.escape` -/
def escapeHtml (s : Str) : Str := s.flatMap escapeChar

/-- `re.sub(r"\s+", " ", s)`: collapse every maximal whitespace run to a
single space. -/
def collapseWs : Str → Str
  | [] => []
  | c :: rest =>
    if pySpace c then
      match rest with
      | [] => [' ']
      | d :: _ => if pySpace d then collapseWs rest else ' ' :: collapseWs rest
    else c :: collapseWs rest

/-- `s.replace(a, b)` where `a` is a single character and `b` a single
character (used for `_` and `-` in `_humanize_placeholder`). -/
def replaceChar (a b : Char) (s : Str) : Str :=
  s.map (fun c => if c = a then b else c)

/-- Decimal rendering of a natural number, for message formatting. -/
def natStr (n : Nat) : Str := (toString n).data

/-! ## `src/utils/docx_utils.py`: the placeholder engine -/

/-- Parse the remainder of a `PLACEHOLDER_RE` candidate after an opening
`[`: consume the maximal run of non-bracket characters; succeed exactly
when that run is followed by `]`, returning the run and the text after the
closing bracket.  (`PLACEHOLDER_RE = \[[^\[\]]+\]`; emptiness of the run is
checked by the caller.) -/
def parseRun : List Char → Option (List Char × List Char)
  | [] => none
  | c :: rest =>
    if c = ']' then some ([], rest)
    else if c = '[' then none
    else match parseRun rest with
      | some (run, tail) => some (c :: run, tail)
      | none => none

theorem parseRun_decomp : ∀ (l run tail : List Char),
    parseRun l = some (run, tail) → l = run ++ ']' :: tail := by
  intro l
  induction l with
  | nil => intro run tail h; simp [parseRun] at h
  | cons c rest ih =>
    intro run tail h
    by_cases hc : c = ']'
    · simp [parseRun, hc] at h
      obtain ⟨h1, h2⟩ := h
      subst h1; subst h2; simp [hc]
    · by_cases hb : c = '['
      · simp [parseRun, hc, hb] at h
      · simp [parseRun, hc, hb] at h
        match hp : parseRun rest with
        | some (run', tail') =>
          rw [hp] at h
          simp at h
          obtain ⟨h1, h2⟩ := h
          subst h1; subst h2
          simpa using ih run' tail' hp
        | none => rw [hp] at h; simp at h

theorem parseRun_len {l run tail : List Char} (h : parseRun l = some (run, tail)) :
    tail.length < l.length := by
  have := parseRun_decomp l run tail h
  subst this
  simp
  omega

/-- `PLACEHOLDER_RE.findall(text)`: all non-overlapping matches of
`\[[^\[\]]+\]`, leftmost first.  On a failed candidate the scan resumes at
the next character; after a match it resumes immediately after the closing
bracket. -/
def scanPH (s : List Char) : List (List Char) :=
  match s with
  | [] => []
  | c :: rest =>
    if c = '[' then
      match hp : parseRun rest with
      | some (run, tail) =>
        if run = [] then scanPH rest
        else ('[' :: (run ++ [']'])) :: scanPH tail
      | none => scanPH rest
    else scanPH rest
termination_by s.length
decreasing_by
  all_goals simp_all
  exact Nat.lt_succ_of_lt (parseRun_len hp)

theorem parseRun_nb : ∀ (l run tail : List Char),
    parseRun l = some (run, tail) → ∀ c ∈ run, c ≠ '[' ∧ c ≠ ']' := by
  intro l
  induction l with
  | nil => intro run tail h; simp [parseRun] at h
  | cons c rest ih =>
    intro run tail h
    by_cases hc : c = ']'
    · simp [parseRun, hc] at h
      obtain ⟨h1, _⟩ := h
      subst h1; simp
    · by_cases hb : c = '['
      · simp [parseRun, hc, hb] at h
      · simp [parseRun, hc, hb] at h
        match hp : parseRun rest with
        | some (run', tail') =>
          rw [hp] at h
          simp at h
          obtain ⟨h1, _⟩ := h
          subst h1
          intro d hd
          rcases List.mem_cons.mp hd with h | h
          · subst h; exact ⟨hb, hc⟩
          · exact ih run' tail' hp d h
        | none => rw [hp] at h; simp at h

theorem parseRun_complete : ∀ (a v : List Char), a ≠ [] → (∀ c ∈ a, c ≠ '[' ∧ c ≠ ']') →
    parseRun (a ++ ']' :: v) = some (a, v) := by
  intro a
  induction a with
  | nil => intro v h; simp at h
  | cons c a' ih =>
    intro v _ hnb
    have hc := hnb c (by simp)
    by_cases ha' : a' = []
    · subst ha'
      simp [parseRun, hc.1, hc.2]
    · have := ih v ha' (fun d hd => hnb d (by simp [hd]))
      simp [parseRun, hc.1, hc.2, this]

/-- a bracket token: `[` + nonempty bracket-free interior + `]` -/
def IsTok (t : Str) : Prop :=
  ∃ a : Str, t = '[' :: (a ++ [']']) ∧ a ≠ [] ∧ ∀ c ∈ a, c ≠ '[' ∧ c ≠ ']'

/-- t occurs as a contiguous substring of s -/
def Occurs (t s : Str) : Prop := ∃ u v : Str, s = u ++ t ++ v

theorem IsTok.ne_nil {t : Str} (h : IsTok t) : t ≠ [] := by
  obtain ⟨a, rfl, -, -⟩ := h; simp

theorem IsTok.head {t : Str} (h : IsTok t) : ∃ r, t = '[' :: r := by
  obtain ⟨a, rfl, -, -⟩ := h; exact ⟨_, rfl⟩

theorem occurs_refl (t : Str) : Occurs t t := ⟨[], [], by simp⟩

theorem Occurs.append_left {t s : Str} (pre : Str) (h : Occurs t s) : Occurs t (pre ++ s) := by
  obtain ⟨u, v, rfl⟩ := h
  exact ⟨pre ++ u, v, by simp⟩

theorem Occurs.append_right {t s : Str} (post : Str) (h : Occurs t s) : Occurs t (s ++ post) := by
  obtain ⟨u, v, rfl⟩ := h
  exact ⟨u, v ++ post, by simp⟩

theorem occurs_cons {t : Str} {c : Char} {w : Str} :
    Occurs t (c :: w) ↔ (∃ v, c :: w = t ++ v) ∨ Occurs t w := by
  constructor
  · rintro ⟨u, v, h⟩
    match u with
    | [] => exact Or.inl ⟨v, by simpa using h⟩
    | d :: u' =>
      simp at h
      exact Or.inr ⟨u', v, by simp [h.2, List.append_assoc]⟩
  · rintro (⟨v, h⟩ | ⟨u, v, h⟩)
    · exact ⟨[], v, by simpa using h⟩
    · exact ⟨c :: u, v, by simp [h]⟩

theorem occurs_nil {t : Str} (h : Occurs t []) : t = [] := by
  obtain ⟨u, v, h⟩ := h
  have := List.append_eq_nil.mp h.symm
  have := List.append_eq_nil.mp this.1
  exact this.2

/-- an occurrence that begins inside a region of non-`[` characters lies after it -/
theorem occurs_skip {t : Str} (pre : Str) (hpre : ∀ c ∈ pre, c ≠ '[') (ht : ∃ r, t = '[' :: r)
    {s : Str} (h : Occurs t (pre ++ s)) : Occurs t s := by
  induction pre with
  | nil => simpa using h
  | cons c pre' ih =>
    have hc : c ≠ '[' := (hpre c (by simp))
    rcases occurs_cons.mp (by simpa using h) with ⟨v, hv⟩ | ho
    · obtain ⟨r, rfl⟩ := ht
      simp at hv
      exact absurd hv.1 hc
    · exact ih (fun d hd => hpre d (by simp [hd])) ho

/-- splitting a string at the first closing bracket is unambiguous when the
prefixes contain none -/
theorem interior_ext : ∀ (a b u v : Str), (∀ c ∈ a, c ≠ ']') → (∀ c ∈ b, c ≠ ']') →
    a ++ ']' :: u = b ++ ']' :: v → a = b ∧ u = v := by
  intro a
  induction a with
  | nil =>
    intro b u v _ hb h
    match b with
    | [] => simpa using h
    | c :: b' =>
      simp at h
      exact absurd h.1.symm (hb c (by simp))
  | cons x a' ih =>
    intro b u v ha hb h
    match b with
    | [] =>
      simp at h
      exact absurd h.1 (ha x (by simp))
    | y :: b' =>
      simp at h
      obtain ⟨hxy, h2⟩ := h
      have := ih b' u v (fun d hd => ha d (by simp [hd])) (fun d hd => hb d (by simp [hd])) h2
      exact ⟨by simp [hxy, this.1], this.2⟩

/-- two bracket tokens that are prefixes of the same string are equal -/
theorem tok_prefix_eq {t p z : Str} (ht : IsTok t) (hp : IsTok p)
    (h1 : t <+: z) (h2 : p <+: z) : t = p := by
  obtain ⟨a, rfl, hane, hanb⟩ := ht
  obtain ⟨b, rfl, hbne, hbnb⟩ := hp
  obtain ⟨w1, hw1⟩ := h1
  obtain ⟨w2, hw2⟩ := h2
  rw [← hw2] at hw1
  simp at hw1
  have := interior_ext a b w1 w2 (fun c hc => (hanb c hc).2) (fun c hc => (hbnb c hc).2)
    (by simpa [List.append_assoc] using hw1)
  simp [this.1]

theorem scanPH_nil : scanPH [] = [] := by rw [scanPH]

theorem scanPH_cons_not_open {c : Char} (rest : Str) (hc : c ≠ '[') :
    scanPH (c :: rest) = scanPH rest := by
  rw [scanPH]
  simp [hc]

theorem scanPH_cons_fail {rest : Str} (hpr : parseRun rest = none) :
    scanPH ('[' :: rest) = scanPH rest := by
  rw [scanPH]
  simp only [reduceIte]
  split
  · next run tail heq => rw [hpr] at heq; cases heq
  · rfl

theorem scanPH_cons_empty {rest tail : Str} (hpr : parseRun rest = some ([], tail)) :
    scanPH ('[' :: rest) = scanPH rest := by
  rw [scanPH]
  simp only [reduceIte]
  split
  · next run tail' heq =>
    rw [hpr] at heq
    cases heq
    simp
  · rfl

theorem scanPH_cons_match {rest run tail : Str} (hpr : parseRun rest = some (run, tail))
    (hrun : run ≠ []) :
    scanPH ('[' :: rest) = ('[' :: (run ++ [']'])) :: scanPH tail := by
  rw [scanPH]
  simp only [reduceIte]
  split
  · next run' tail' heq =>
    rw [hpr] at heq
    cases heq
    simp [hrun]
  · next heq => rw [hpr] at heq; cases heq

theorem scanPH_mem_aux : ∀ (n : Nat) (s : Str), s.length ≤ n →
    ∀ t, t ∈ scanPH s ↔ (IsTok t ∧ Occurs t s) := by
  intro n
  induction n with
  | zero =>
    intro s hs t
    have : s = [] := List.length_eq_zero.mp (Nat.le_zero.mp hs)
    subst this
    rw [scanPH_nil]
    simp only [List.not_mem_nil, false_iff]
    rintro ⟨ht, ho⟩
    exact ht.ne_nil (occurs_nil ho)
  | succ n ih =>
    intro s hs t
    match s with
    | [] =>
      rw [scanPH_nil]
      simp only [List.not_mem_nil, false_iff]
      rintro ⟨ht, ho⟩
      exact ht.ne_nil (occurs_nil ho)
    | c :: rest =>
      have hrest : rest.length ≤ n := by simp at hs; omega
      by_cases hc : c = '['
      · subst hc
        match hpr : parseRun rest with
        | some (run, tail) =>
          have hdec := parseRun_decomp rest run tail hpr
          have hnb := parseRun_nb rest run tail hpr
          by_cases hrun : run = []
          · subst hrun
            rw [scanPH_cons_empty hpr, ih rest hrest t]
            constructor
            · rintro ⟨ht, ho⟩
              exact ⟨ht, ho.append_left ['[']⟩
            · rintro ⟨ht, ho⟩
              refine ⟨ht, ?_⟩
              rcases occurs_cons.mp ho with ⟨v, hv⟩ | ho'
              · obtain ⟨a, rfl, hane, hanb⟩ := ht
                have hrest_eq : rest = a ++ ']' :: v := by
                  simpa [List.append_assoc] using hv
                rw [hrest_eq, parseRun_complete a v hane hanb] at hpr
                simp at hpr
                exact absurd hpr.1 hane
              · exact ho'
          · rw [scanPH_cons_match hpr hrun]
            have htail : tail.length ≤ n := by
              have := parseRun_len hpr
              simp at hs
              omega
            have hm_tok : IsTok ('[' :: (run ++ [']'])) := ⟨run, rfl, hrun, hnb⟩
            have hs_eq : '[' :: rest = ('[' :: (run ++ [']'])) ++ tail := by
              simp [hdec, List.append_assoc]
            constructor
            · intro hmem
              rcases List.mem_cons.mp hmem with rfl | hmem'
              · exact ⟨hm_tok, ⟨[], tail, by simpa using hs_eq⟩⟩
              · have hres := (ih tail htail t).mp hmem'
                refine ⟨hres.1, ?_⟩
                rw [hs_eq]
                exact hres.2.append_left _
            · rintro ⟨ht, ho⟩
              rcases occurs_cons.mp ho with ⟨v, hv⟩ | ho'
              · have h1 : t <+: ('[' :: rest) := ⟨v, hv.symm⟩
                have h2 : ('[' :: (run ++ [']'])) <+: ('[' :: rest) := ⟨tail, hs_eq.symm⟩
                have := tok_prefix_eq ht hm_tok h1 h2
                simp [this]
              · have hrest' : rest = (run ++ [']']) ++ tail := by
                  simp [hdec, List.append_assoc]
                rw [hrest'] at ho'
                have hpre : ∀ d ∈ run ++ [']'], d ≠ '[' := by
                  intro d hd
                  rcases List.mem_append.mp hd with h | h
                  · exact (hnb d h).1
                  · simp at h
                    subst h
                    decide
                have ho'' : Occurs t tail := occurs_skip _ hpre ht.head ho'
                exact List.mem_cons_of_mem _ ((ih tail htail t).mpr ⟨ht, ho''⟩)
        | none =>
          rw [scanPH_cons_fail hpr, ih rest hrest t]
          constructor
          · rintro ⟨ht, ho⟩
            exact ⟨ht, ho.append_left ['[']⟩
          · rintro ⟨ht, ho⟩
            refine ⟨ht, ?_⟩
            rcases occurs_cons.mp ho with ⟨v, hv⟩ | ho'
            · obtain ⟨a, rfl, hane, hanb⟩ := ht
              have hrest_eq : rest = a ++ ']' :: v := by
                simpa [List.append_assoc] using hv
              rw [hrest_eq, parseRun_complete a v hane hanb] at hpr
              cases hpr
            · exact ho'
      · rw [scanPH_cons_not_open rest hc, ih rest hrest t]
        constructor
        · rintro ⟨ht, ho⟩
          exact ⟨ht, ho.append_left [c]⟩
        · rintro ⟨ht, ho⟩
          refine ⟨ht, ?_⟩
          rcases occurs_cons.mp ho with ⟨v, hv⟩ | ho'
          · obtain ⟨r, rfl⟩ := ht.head
            simp at hv
            exact absurd hv.1 hc
          · exact ho'

/-- `PLACEHOLDER_RE.findall` finds exactly the bracket tokens that occur
literally in the text. -/
theorem scanPH_mem (s : Str) (t : Str) : t ∈ scanPH s ↔ (IsTok t ∧ Occurs t s) :=
  scanPH_mem_aux s.length s (Nat.le_refl _) t

/-- Python `str.replace(pat, repl)`: replace every non-overlapping
occurrence of `pat`, scanning left to right, never rescanning replacement
text.  (`_apply_mapping` never calls it with an empty pattern; for
totality the empty pattern is the identity.) -/
def replaceAll (pat repl : Str) (s : Str) : Str :=
  if hp : pat = [] then s
  else
    match s with
    | [] => []
    | c :: rest =>
      if pat.isPrefixOf (c :: rest) then
        repl ++ replaceAll pat repl (rest.drop (pat.length - 1))
      else
        c :: replaceAll pat repl rest
termination_by s.length
decreasing_by
  · have h1 : (rest.drop (pat.length - 1)).length ≤ rest.length := by
      simp
    simp
    omega
  · simp

/-- `_apply_mapping(text, mapping)`: fold every non-null entry of the
mapping (in insertion order) through a literal find-and-replace on the
working string, skipping falsy (empty) placeholders and `None` values. -/
def apply_mapping (mapping : List (Str × Option Str)) (text : Str) : Str :=
  mapping.foldl
    (fun updated kv =>
      match kv with
      | (_, none) => updated
      | (placeholder, some value) =>
        if placeholder = [] then updated else replaceAll placeholder value updated)
    text

/-- A document element as exposed by the document library: its own
paragraph texts plus its tables; a table is a list of rows, a row a list
of cells, and each cell is again a document element. -/
inductive Elem where
  | mk (paragraphs : List Str) (tables : List (List (List Elem)))

mutual
/-- `_iter_paragraphs(element)`: the element's own paragraphs first, then
every table, row by row, cell by cell, recursively (depth first). -/
def iterParagraphs : Elem → List Str
  | .mk ps tables => ps ++ iterTables tables
def iterTables : List (List (List Elem)) → List Str
  | [] => []
  | t :: ts => iterRows t ++ iterTables ts
def iterRows : List (List Elem) → List Str
  | [] => []
  | r :: rs => iterCells r ++ iterRows rs
def iterCells : List Elem → List Str
  | [] => []
  | c :: cs => iterParagraphs c ++ iterCells cs
end

mutual
/-- Structure-preserving rewrite of every paragraph text (the effect of
assigning `paragraph.text` during the `_iter_paragraphs` walk). -/
def mapParas (f : Str → Str) : Elem → Elem
  | .mk ps tables => .mk (ps.map f) (mapParasT f tables)
def mapParasT (f : Str → Str) : List (List (List Elem)) → List (List (List Elem))
  | [] => []
  | t :: ts => mapParasR f t :: mapParasT f ts
def mapParasR (f : Str → Str) : List (List Elem) → List (List Elem)
  | [] => []
  | r :: rs => mapParasC f r :: mapParasR f rs
def mapParasC (f : Str → Str) : List Elem → List Elem
  | [] => []
  | c :: cs => mapParas f c :: mapParasC f cs
end

mutual
theorem iterParagraphs_mapParas (f : Str → Str) :
    ∀ e : Elem, iterParagraphs (mapParas f e) = (iterParagraphs e).map f
  | .mk ps tables => by
    simp [mapParas, iterParagraphs, iterParagraphs_mapParasT f tables]
theorem iterParagraphs_mapParasT (f : Str → Str) :
    ∀ ts, iterTables (mapParasT f ts) = (iterTables ts).map f
  | [] => by simp [mapParasT, iterTables]
  | t :: ts => by
    simp [mapParasT, iterTables, iterParagraphs_mapParasR f t,
      iterParagraphs_mapParasT f ts]
theorem iterParagraphs_mapParasR (f : Str → Str) :
    ∀ rs, iterRows (mapParasR f rs) = (iterRows rs).map f
  | [] => by simp [mapParasR, iterRows]
  | r :: rs => by
    simp [mapParasR, iterRows, iterParagraphs_mapParasC f r,
      iterParagraphs_mapParasR f rs]
theorem iterParagraphs_mapParasC (f : Str → Str) :
    ∀ cs, iterCells (mapParasC f cs) = (iterCells cs).map f
  | [] => by simp [mapParasC, iterCells]
  | c :: cs => by
    simp [mapParasC, iterCells, iterParagraphs_mapParas f c,
      iterParagraphs_mapParasC f cs]
end

/-- Ordered-dict `setdefault` on the list of keys accumulated so far. -/
def insertOrdered (acc : List Str) (x : Str) : List Str :=
  if x ∈ acc then acc else acc ++ [x]

/-- All regex matches of the whole document, paragraph by paragraph in
document order, each passed through `str.strip()` as in the source. -/
def matchStream (doc : Elem) : List Str :=
  (iterParagraphs doc).flatMap (fun text => (scanPH text).map pystrip)

/-- `extract_placeholders`: every stripped match inserted into an ordered
dict (`setdefault`), then the ordered key list. -/
def extract_placeholders (doc : Elem) : List Str :=
  (matchStream doc).foldl insertOrdered []

/-- `replace_placeholders(doc, mapping)` restricted to its effect on the
document's text content: with an empty mapping the document is saved
unchanged; otherwise every non-empty paragraph text is rewritten to the
result of `_apply_mapping` (assigned only when it differs, which does not
change the resulting text). -/
def replace_placeholders (doc : Elem) (mapping : List (Str × Option Str)) : Elem :=
  if mapping = [] then doc
  else
    mapParas
      (fun original =>
        if original = [] then original
        else
          let updated := apply_mapping mapping original
          if updated ≠ original then updated else original)
      doc

/-- `build_preview_text(doc, mapping)`: substitute every paragraph,
keep the results whose `strip()` is non-empty, and join with a blank
line. -/
def build_preview_text (doc : Elem) (mapping : List (Str × Option Str)) : Str :=
  let buf := (iterParagraphs doc).foldl
    (fun buf text =>
      let updated := apply_mapping mapping text
      if pystrip updated ≠ [] then buf ++ [updated] else buf)
    []
  List.intercalate "\n\n".data buf

/-! ## First-seen-order deduplication (the `OrderedDict.setdefault` pattern) -/

def dedupF : List Str → List Str
  | [] => []
  | x :: xs => x :: dedupF (xs.filter (fun y => decide (y ≠ x)))
termination_by l => l.length
decreasing_by
  simp only [List.length_cons]
  exact Nat.lt_succ_of_le (List.length_filter_le _ xs)

theorem dedupF_nil : dedupF [] = [] := by rw [dedupF]

theorem dedupF_cons (x : Str) (xs : List Str) :
    dedupF (x :: xs) = x :: dedupF (xs.filter (fun y => decide (y ≠ x))) := by rw [dedupF]

theorem foldl_insertOrdered : ∀ (l acc : List Str),
    l.foldl insertOrdered acc = acc ++ dedupF (l.filter (fun x => decide (x ∉ acc))) := by
  intro l
  induction l with
  | nil => intro acc; simp [dedupF_nil]
  | cons x xs ih =>
    intro acc
    by_cases hx : x ∈ acc
    · have h1 : List.foldl insertOrdered acc (x :: xs) = List.foldl insertOrdered acc xs := by
        simp [List.foldl_cons, insertOrdered, hx]
      have h2 : (x :: xs).filter (fun y => decide (y ∉ acc)) =
          xs.filter (fun y => decide (y ∉ acc)) := by
        simp [List.filter_cons, hx]
      rw [h1, ih acc, h2]
    · have h1 : List.foldl insertOrdered acc (x :: xs) =
          List.foldl insertOrdered (acc ++ [x]) xs := by
        simp [List.foldl_cons, insertOrdered, hx]
      have h2 : (x :: xs).filter (fun y => decide (y ∉ acc)) =
          x :: xs.filter (fun y => decide (y ∉ acc)) := by
        simp [List.filter_cons, hx]
      have h3 : xs.filter (fun y => decide (y ∉ acc ++ [x])) =
          (xs.filter (fun y => decide (y ∉ acc))).filter (fun y => decide (y ≠ x)) := by
        rw [List.filter_filter]
        apply List.filter_congr
        intro a _
        simp [List.mem_append, not_or, Bool.and_comm]
      rw [h1, ih (acc ++ [x]), h2, dedupF_cons, h3]
      simp

theorem dedupF_mem : ∀ (l : List Str) (a : Str), a ∈ dedupF l ↔ a ∈ l := by
  intro l
  generalize hn : l.length = n
  induction n using Nat.strong_induction_on generalizing l with
  | _ n ih =>
    match l with
    | [] => intro a; rw [dedupF_nil]
    | x :: xs =>
      intro a
      rw [dedupF_cons]
      have hlen : (xs.filter (fun y => decide (y ≠ x))).length < n := by
        have := List.length_filter_le (fun y => decide (y ≠ x)) xs
        simp at hn
        omega
      rw [List.mem_cons, ih _ hlen _ rfl a]
      simp only [List.mem_filter, decide_eq_true_eq, List.mem_cons]
      constructor
      · rintro (rfl | ⟨h, -⟩)
        · exact Or.inl rfl
        · exact Or.inr h
      · rintro (rfl | h)
        · exact Or.inl rfl
        · by_cases hax : a = x
          · exact Or.inl hax
          · exact Or.inr ⟨h, hax⟩

theorem dedupF_nodup : ∀ (l : List Str), (dedupF l).Nodup := by
  intro l
  generalize hn : l.length = n
  induction n using Nat.strong_induction_on generalizing l with
  | _ n ih =>
    match l with
    | [] => rw [dedupF_nil]; exact List.nodup_nil
    | x :: xs =>
      rw [dedupF_cons]
      have hlen : (xs.filter (fun y => decide (y ≠ x))).length < n := by
        have := List.length_filter_le (fun y => decide (y ≠ x)) xs
        simp at hn
        omega
      refine List.nodup_cons.mpr ⟨?_, ih _ hlen _ rfl⟩
      intro hx
      have := (dedupF_mem _ x).mp hx
      simp [List.mem_filter] at this

/-- Index of the first occurrence of `a` (length of the list when absent). -/
def firstIdx : List Str → Str → Nat
  | [], _ => 0
  | x :: xs, a => if x = a then 0 else firstIdx xs a + 1

theorem firstIdx_cons_self (a : Str) (l : List Str) : firstIdx (a :: l) a = 0 := by
  simp [firstIdx]

theorem firstIdx_cons_ne {x a : Str} (l : List Str) (h : x ≠ a) :
    firstIdx (x :: l) a = firstIdx l a + 1 := by
  simp [firstIdx, h]

theorem firstIdx_filter_lt (p : Str → Bool) : ∀ (xs : List Str) (a b : Str),
    a ∈ xs.filter p → b ∈ xs.filter p →
    firstIdx (xs.filter p) a < firstIdx (xs.filter p) b → firstIdx xs a < firstIdx xs b := by
  intro xs
  induction xs with
  | nil => intro a b ha; simp at ha
  | cons c xs' ih =>
    intro a b ha hb hlt
    by_cases hpc : p c
    · rw [List.filter_cons_of_pos hpc] at ha hb hlt
      by_cases hac : a = c
      · subst hac
        have hbc : b ≠ a := by
          intro h
          subst h
          omega
        have e0 := firstIdx_cons_self a xs'
        have e1 := firstIdx_cons_ne (x := a) (a := b) xs' (fun h => hbc h.symm)
        omega
      · have hbc : b ≠ c := by
          intro h
          subst h
          rw [firstIdx_cons_self] at hlt
          omega
        rw [firstIdx_cons_ne _ (fun h => hac (h.symm))] at hlt
        rw [firstIdx_cons_ne _ (fun h => hbc (h.symm))] at hlt
        have e1 := firstIdx_cons_ne (x := c) (a := a) xs' (fun h => hac h.symm)
        have e2 := firstIdx_cons_ne (x := c) (a := b) xs' (fun h => hbc h.symm)
        have ha' : a ∈ xs'.filter p := by
          rcases List.mem_cons.mp ha with h | h
          · exact absurd h hac
          · exact h
        have hb' : b ∈ xs'.filter p := by
          rcases List.mem_cons.mp hb with h | h
          · exact absurd h hbc
          · exact h
        have := ih a b ha' hb' (by omega)
        omega
    · rw [List.filter_cons_of_neg hpc] at ha hb hlt
      have hac : a ≠ c := by
        intro h
        subst h
        exact hpc (List.of_mem_filter ha)
      have hbc : b ≠ c := by
        intro h
        subst h
        exact hpc (List.of_mem_filter hb)
      have e1 := firstIdx_cons_ne (x := c) (a := a) xs' (fun h => hac h.symm)
      have e2 := firstIdx_cons_ne (x := c) (a := b) xs' (fun h => hbc h.symm)
      have := ih a b ha hb hlt
      omega

theorem dedupF_pairwise : ∀ (l : List Str),
    (dedupF l).Pairwise (fun a b => firstIdx l a < firstIdx l b) := by
  intro l
  generalize hn : l.length = n
  induction n using Nat.strong_induction_on generalizing l with
  | _ n ih =>
    match l with
    | [] => rw [dedupF_nil]; exact List.Pairwise.nil
    | x :: xs =>
      rw [dedupF_cons]
      have hlen : (xs.filter (fun y => decide (y ≠ x))).length < n := by
        have := List.length_filter_le (fun y => decide (y ≠ x)) xs
        simp at hn
        omega
      refine List.pairwise_cons.mpr ⟨?_, ?_⟩
      · intro b hb
        have hbmem := (dedupF_mem _ b).mp hb
        have hbx : b ≠ x := by
          have := (List.mem_filter.mp hbmem).2
          simpa using this
        have e0 := firstIdx_cons_self x xs
        have e1 := firstIdx_cons_ne (x := x) (a := b) xs (fun h => hbx h.symm)
        omega
      · have hpw := ih _ hlen _ rfl
        refine List.Pairwise.imp_of_mem ?_ hpw
        intro a b ha hb hlt
        have ha' := (dedupF_mem _ a).mp ha
        have hb' := (dedupF_mem _ b).mp hb
        have hax : a ≠ x := by simpa using (List.mem_filter.mp ha').2
        have hbx : b ≠ x := by simpa using (List.mem_filter.mp hb').2
        have hxs := firstIdx_filter_lt _ xs a b ha' hb' hlt
        have e1 := firstIdx_cons_ne (x := x) (a := a) xs (fun h => hax h.symm)
        have e2 := firstIdx_cons_ne (x := x) (a := b) xs (fun h => hbx h.symm)
        omega

/-! ## C1: characterization of `extract_placeholders` -/

theorem pystrip_tok {t : Str} (h : IsTok t) : pystrip t = t := by
  obtain ⟨a, rfl, -, -⟩ := h
  unfold pystrip lstrip rstrip
  have h1 : pySpace '[' = false := by decide
  have h2 : pySpace ']' = false := by decide
  rw [List.dropWhile_cons]
  simp only [h1, Bool.false_eq_true, if_false]
  have h3 : ('[' :: (a ++ [']'])).reverse = ']' :: (a.reverse ++ ['[']) := by simp
  rw [h3, List.dropWhile_cons]
  simp only [h2, Bool.false_eq_true, if_false]
  simp

theorem matchStream_eq (doc : Elem) :
    matchStream doc = (iterParagraphs doc).flatMap scanPH := by
  unfold matchStream
  suffices h : ∀ L : List Str,
      L.flatMap (fun text => (scanPH text).map pystrip) = L.flatMap scanPH from h _
  intro L
  induction L with
  | nil => simp
  | cons p L ih =>
    simp only [List.flatMap_cons, ih]
    congr 1
    have : ∀ t ∈ scanPH p, pystrip t = t := by
      intro t ht
      exact pystrip_tok ((scanPH_mem p t).mp ht).1
    calc (scanPH p).map pystrip = (scanPH p).map id := List.map_congr_left this
    _ = scanPH p := List.map_id _

theorem extract_placeholders_eq_dedup (doc : Elem) :
    extract_placeholders doc = dedupF (matchStream doc) := by
  unfold extract_placeholders
  rw [foldl_insertOrdered]
  simp

/-- Characterization of `extract_placeholders`: membership, duplicate
freedom, first-appearance order. -/
theorem extract_placeholders_char (doc : Elem) :
    (∀ t, t ∈ extract_placeholders doc ↔
        (IsTok t ∧ ∃ p ∈ iterParagraphs doc, Occurs t p))
    ∧ (extract_placeholders doc).Nodup
    ∧ (extract_placeholders doc).Pairwise
        (fun a b => firstIdx (matchStream doc) a < firstIdx (matchStream doc) b) := by
  have hext := extract_placeholders_eq_dedup doc
  refine ⟨?_, ?_, ?_⟩
  · intro t
    rw [hext, dedupF_mem, matchStream_eq, List.mem_flatMap]
    constructor
    · rintro ⟨p, hp, hm⟩
      have := (scanPH_mem p t).mp hm
      exact ⟨this.1, p, hp, this.2⟩
    · rintro ⟨ht, p, hp, ho⟩
      exact ⟨p, hp, (scanPH_mem p t).mpr ⟨ht, ho⟩⟩
  · rw [hext]; exact dedupF_nodup _
  · rw [hext]; exact dedupF_pairwise _

/-- Claim C1: `extract_placeholders` returns exactly the set of bracket
tokens literally present in the document's paragraph texts (including
nested table cells), with no duplicates, ordered by first appearance in
the document-order stream of matches. -/
theorem extract_placeholders_spec (doc : Elem) :
    (∀ t, t ∈ extract_placeholders doc ↔
        (IsTok t ∧ ∃ p ∈ iterParagraphs doc, Occurs t p))
    ∧ (extract_placeholders doc).Nodup
    ∧ (extract_placeholders doc).Pairwise
        (fun a b => firstIdx (matchStream doc) a < firstIdx (matchStream doc) b) :=
  extract_placeholders_char doc

/-! ## C2: substitution machinery -/

theorem occurs_iff_infix {t s : Str} : Occurs t s ↔ t <:+: s := by
  constructor
  · rintro ⟨u, v, rfl⟩
    exact ⟨u, v, by simp⟩
  · rintro ⟨u, v, h⟩
    exact ⟨u, v, by simp [h]⟩

instance occursDecidable (t s : Str) : Decidable (Occurs t s) :=
  decidable_of_iff _ occurs_iff_infix.symm

/-- Executable bracket-token check. -/
def isTokB (t : Str) : Bool :=
  match t with
  | [] => false
  | c :: rest =>
    if c = '[' then
      match parseRun rest with
      | some (run, tail) => decide (run ≠ []) && decide (tail = [])
      | none => false
    else false

theorem isTokB_iff {t : Str} : isTokB t = true ↔ IsTok t := by
  constructor
  · intro h
    match t with
    | [] => simp [isTokB] at h
    | c :: rest =>
      simp only [isTokB] at h
      by_cases hc : c = '['
      · subst hc
        rw [if_pos rfl] at h
        match hp : parseRun rest with
        | some (run, tail) =>
          rw [hp] at h
          simp at h
          obtain ⟨hrun, htail⟩ := h
          subst htail
          have hd := parseRun_decomp rest run [] hp
          have hnb := parseRun_nb rest run [] hp
          exact ⟨run, by simp [hd], hrun, hnb⟩
        | none => rw [hp] at h; simp at h
      · rw [if_neg hc] at h
        cases h
  · intro h
    obtain ⟨a, rfl, hane, hanb⟩ := h
    simp only [isTokB, if_pos rfl]
    rw [show a ++ [']'] = a ++ ']' :: [] from by simp]
    rw [parseRun_complete a [] hane hanb]
    simp [hane]

instance isTokDecidable : DecidablePred IsTok :=
  fun _ => decidable_of_iff _ isTokB_iff

theorem replaceAll_nil (pat repl : Str) : replaceAll pat repl [] = [] := by
  rw [replaceAll]
  split <;> rfl

theorem replaceAll_cons_match {pat : Str} (hpat : pat ≠ []) (repl : Str) {c : Char} {rest : Str}
    (h : pat <+: (c :: rest)) :
    replaceAll pat repl (c :: rest) = repl ++ replaceAll pat repl (rest.drop (pat.length - 1)) := by
  rw [replaceAll]
  rw [dif_neg hpat]
  rw [if_pos (List.isPrefixOf_iff_prefix.mpr h)]

theorem replaceAll_cons_nomatch {pat : Str} (hpat : pat ≠ []) (repl : Str) {c : Char} {rest : Str}
    (h : ¬ pat <+: (c :: rest)) :
    replaceAll pat repl (c :: rest) = c :: replaceAll pat repl rest := by
  rw [replaceAll]
  rw [dif_neg hpat]
  rw [if_neg (fun hb => h (List.isPrefixOf_iff_prefix.mp hb))]

/-- The scan passes unchanged over characters that cannot start a match. -/
theorem replaceAll_skip_text {pat : Str} (hpat : ∃ r, pat = '[' :: r) (repl : Str) :
    ∀ (x s : Str), (∀ c ∈ x, c ≠ '[') →
      replaceAll pat repl (x ++ s) = x ++ replaceAll pat repl s := by
  obtain ⟨r, rfl⟩ := hpat
  intro x
  induction x with
  | nil => intro s _; simp
  | cons c x' ih =>
    intro s hx
    have hc : c ≠ '[' := hx c (by simp)
    have hnp : ¬ ('[' :: r) <+: (c :: (x' ++ s)) := by
      rintro ⟨w, hw⟩
      simp at hw
      exact hc hw.1.symm
    rw [List.cons_append, replaceAll_cons_nomatch (by simp) repl hnp,
      ih s (fun d hd => hx d (by simp [hd]))]
    simp

/-- A match at the head of the string is replaced and skipped over. -/
theorem replaceAll_head_match (pat repl s : Str) (hpat : pat ≠ []) :
    replaceAll pat repl (pat ++ s) = repl ++ replaceAll pat repl s := by
  match pat, hpat with
  | e :: pat', _ =>
    have hpfx : (e :: pat') <+: (e :: (pat' ++ s)) := ⟨s, by simp⟩
    rw [show (e :: pat') ++ s = e :: (pat' ++ s) from rfl]
    rw [replaceAll_cons_match (by simp) repl hpfx]
    congr 1
    have h1 : (e :: pat').length - 1 = pat'.length := by simp
    rw [h1, List.drop_left]

/-- The scan passes unchanged over a bracket token different from the
pattern. -/
theorem replaceAll_skip_tok {pat p : Str} (hpat : IsTok pat) (hp : IsTok p) (hne : p ≠ pat)
    (repl s : Str) :
    replaceAll pat repl (p ++ s) = p ++ replaceAll pat repl s := by
  obtain ⟨b, rfl, hbne, hbnb⟩ := hp
  have hnp : ¬ pat <+: ('[' :: (b ++ [']']) ++ s) := by
    intro hpfx
    have h2 : ('[' :: (b ++ [']'])) <+: ('[' :: (b ++ [']']) ++ s) := ⟨s, rfl⟩
    exact hne (tok_prefix_eq ⟨b, rfl, hbne, hbnb⟩ hpat h2 hpfx)
  have hstep1 : replaceAll pat repl ('[' :: (b ++ [']']) ++ s) =
      '[' :: replaceAll pat repl ((b ++ [']']) ++ s) := by
    rw [show ('[' :: (b ++ [']'])) ++ s = '[' :: ((b ++ [']']) ++ s) from rfl] at hnp ⊢
    exact replaceAll_cons_nomatch hpat.ne_nil repl hnp
  have hstep2 : replaceAll pat repl ((b ++ [']']) ++ s) =
      b ++ replaceAll pat repl (']' :: s) := by
    rw [show (b ++ [']']) ++ s = b ++ (']' :: s) from by simp]
    exact replaceAll_skip_text hpat.head repl b (']' :: s) (fun c hc => (hbnb c hc).1)
  have hstep3 : replaceAll pat repl (']' :: s) = ']' :: replaceAll pat repl s := by
    apply replaceAll_cons_nomatch hpat.ne_nil repl
    rintro ⟨w, hw⟩
    obtain ⟨r, hr⟩ := hpat.head
    rw [hr] at hw
    simp at hw
  rw [hstep1, hstep2, hstep3]
  simp

/-- A paragraph parsed into bracket-free text pieces and bracket tokens. -/
inductive Chunk where
  | text (s : Str)
  | tok (t : Str)
deriving DecidableEq

def Chunk.flat : Chunk → Str
  | .text s => s
  | .tok t => t

def flatChunks (cs : List Chunk) : Str := cs.flatMap Chunk.flat

def WfChunk : Chunk → Prop
  | .text s => ∀ c ∈ s, c ≠ '[' ∧ c ≠ ']'
  | .tok t => IsTok t

instance wfChunkDecidable : DecidablePred WfChunk := fun ch =>
  match ch with
  | .text s => inferInstanceAs (Decidable (∀ c ∈ s, c ≠ '[' ∧ c ≠ ']'))
  | .tok t => inferInstanceAs (Decidable (IsTok t))

def WfChunks (cs : List Chunk) : Prop := ∀ ch ∈ cs, WfChunk ch

/-- A string all of whose bracket characters sit inside complete bracket
tokens. -/
def WellBracketed (s : Str) : Prop := ∃ cs, WfChunks cs ∧ s = flatChunks cs

def chunkToks (cs : List Chunk) : List Str :=
  cs.filterMap (fun ch => match ch with | .tok t => some t | .text _ => none)

def replaceChunk (pat repl : Str) (ch : Chunk) : Chunk :=
  match ch with
  | .text s => .text s
  | .tok t => if t = pat then .text repl else .tok t

theorem flatChunks_nil : flatChunks [] = [] := rfl

theorem flatChunks_cons (ch : Chunk) (cs : List Chunk) :
    flatChunks (ch :: cs) = ch.flat ++ flatChunks cs := by
  simp [flatChunks]

theorem replaceAll_chunks {pat : Str} (hpat : IsTok pat) (repl : Str) :
    ∀ cs : List Chunk, WfChunks cs →
      replaceAll pat repl (flatChunks cs) = flatChunks (cs.map (replaceChunk pat repl)) := by
  intro cs
  induction cs with
  | nil =>
    intro _
    rw [flatChunks_nil, List.map_nil, flatChunks_nil, replaceAll_nil]
  | cons ch cs' ih =>
    intro hwf
    have hwf' : WfChunks cs' := fun c hc => hwf c (by simp [hc])
    match ch with
    | .text x =>
      have hx : ∀ c ∈ x, c ≠ '[' := fun c hc => ((hwf (Chunk.text x) (by simp)) c hc).1
      rw [flatChunks_cons]
      show replaceAll pat repl (x ++ flatChunks cs') = _
      rw [replaceAll_skip_text hpat.head repl x _ hx, ih hwf']
      simp [flatChunks_cons, replaceChunk, Chunk.flat]
    | .tok t =>
      have ht : IsTok t := hwf (Chunk.tok t) (by simp)
      by_cases hteq : t = pat
      · subst hteq
        rw [flatChunks_cons]
        show replaceAll t repl (t ++ flatChunks cs') = _
        rw [replaceAll_head_match _ _ _ ht.ne_nil, ih hwf']
        simp [flatChunks_cons, replaceChunk, Chunk.flat]
      · rw [flatChunks_cons]
        show replaceAll pat repl (t ++ flatChunks cs') = _
        rw [replaceAll_skip_tok hpat ht hteq, ih hwf']
        simp [flatChunks_cons, replaceChunk, hteq, Chunk.flat]

theorem wfChunks_map_replace {pat repl : Str} (hrepl : ∀ c ∈ repl, c ≠ '[' ∧ c ≠ ']')
    {cs : List Chunk} (h : WfChunks cs) : WfChunks (cs.map (replaceChunk pat repl)) := by
  intro ch hch
  obtain ⟨ch0, hch0, rfl⟩ := List.mem_map.mp hch
  have hwf0 := h ch0 hch0
  match ch0 with
  | .text x => exact hwf0
  | .tok t =>
    by_cases hteq : t = pat
    · subst hteq
      show WfChunk (replaceChunk t repl (Chunk.tok t))
      simp only [replaceChunk, if_pos rfl]
      exact fun c hc => hrepl c hc
    · simpa [replaceChunk, hteq] using hwf0

theorem chunkToks_cons_text (x : Str) (cs : List Chunk) :
    chunkToks (Chunk.text x :: cs) = chunkToks cs := by
  simp [chunkToks]

theorem chunkToks_cons_tok (t : Str) (cs : List Chunk) :
    chunkToks (Chunk.tok t :: cs) = t :: chunkToks cs := by
  simp [chunkToks]

theorem chunkToks_map_replace (pat repl : Str) :
    ∀ cs : List Chunk, chunkToks (cs.map (replaceChunk pat repl)) =
      (chunkToks cs).filter (fun t => decide (t ≠ pat)) := by
  intro cs
  induction cs with
  | nil => rfl
  | cons ch cs' ih =>
    match ch with
    | .text x =>
      rw [List.map_cons, show replaceChunk pat repl (Chunk.text x) = Chunk.text x from rfl,
        chunkToks_cons_text, ih, chunkToks_cons_text]
    | .tok t =>
      by_cases hteq : t = pat
      · subst hteq
        rw [List.map_cons, show replaceChunk t repl (Chunk.tok t) = Chunk.text repl from by
          simp [replaceChunk]]
        rw [chunkToks_cons_text, ih, chunkToks_cons_tok, List.filter_cons]
        simp
      · rw [List.map_cons, show replaceChunk pat repl (Chunk.tok t) = Chunk.tok t from by
          simp [replaceChunk, hteq]]
        rw [chunkToks_cons_tok, ih, chunkToks_cons_tok, List.filter_cons]
        simp [hteq]

/-- Inside a well-bracketed string, a bracket token occurs as a substring
exactly when it is one of the chunk tokens. -/
theorem occurs_tok_flatChunks {k : Str} (hk : IsTok k) :
    ∀ cs : List Chunk, WfChunks cs → (Occurs k (flatChunks cs) ↔ k ∈ chunkToks cs) := by
  intro cs
  induction cs with
  | nil =>
    intro _
    rw [flatChunks_nil]
    simp only [chunkToks, List.filterMap_nil, List.not_mem_nil, iff_false]
    intro h
    exact hk.ne_nil (occurs_nil h)
  | cons ch cs' ih =>
    intro hwf
    have hwf' : WfChunks cs' := fun c hc => hwf c (by simp [hc])
    match ch with
    | .text x =>
      have hx : ∀ c ∈ x, c ≠ '[' := fun c hc => ((hwf (Chunk.text x) (by simp)) c hc).1
      rw [flatChunks_cons]
      have htoks : chunkToks (Chunk.text x :: cs') = chunkToks cs' :=
        chunkToks_cons_text x cs'
      rw [htoks, ← ih hwf']
      constructor
      · intro h
        exact occurs_skip x hx hk.head h
      · intro h
        exact h.append_left x
    | .tok p =>
      have hp : IsTok p := hwf (Chunk.tok p) (by simp)
      have htoks : chunkToks (Chunk.tok p :: cs') = p :: chunkToks cs' :=
        chunkToks_cons_tok p cs'
      rw [flatChunks_cons, htoks]
      obtain ⟨b, hpb, hbne, hbnb⟩ := hp
      constructor
      · intro h
        rw [List.mem_cons]
        rw [show (Chunk.tok p).flat = p from rfl] at h
        rw [hpb] at h
        rcases occurs_cons.mp (by simpa using h) with ⟨v, hv⟩ | ho
        · left
          have h1 : k <+: ('[' :: (b ++ [']']) ++ flatChunks cs') := ⟨v, by simpa using hv.symm⟩
          have h2 : ('[' :: (b ++ [']'])) <+: ('[' :: (b ++ [']']) ++ flatChunks cs') :=
            ⟨flatChunks cs', rfl⟩
          rw [hpb]
          exact tok_prefix_eq hk ⟨b, rfl, hbne, hbnb⟩ h1 h2
        · have ho2 : Occurs k (']' :: flatChunks cs') := by
            apply occurs_skip b (fun c hc => (hbnb c hc).1) hk.head
            simpa [List.append_assoc] using ho
          rcases occurs_cons.mp ho2 with ⟨v, hv⟩ | ho3
          · obtain ⟨r, hr⟩ := hk.head
            rw [hr] at hv
            simp at hv
          · exact Or.inr ((ih hwf').mp ho3)
      · intro h
        rcases List.mem_cons.mp h with rfl | h'
        · exact ⟨[], flatChunks cs', by simp [Chunk.flat]⟩
        · exact ((ih hwf').mpr h').append_left _

theorem apply_mapping_nil_map (text : Str) : apply_mapping [] text = text := rfl

theorem apply_mapping_cons_none (k : Str) (m : List (Str × Option Str)) (text : Str) :
    apply_mapping ((k, none) :: m) text = apply_mapping m text := rfl

theorem apply_mapping_cons_some (k v : Str) (hk : k ≠ []) (m : List (Str × Option Str))
    (text : Str) :
    apply_mapping ((k, some v) :: m) text = apply_mapping m (replaceAll k v text) := by
  simp [apply_mapping, List.foldl_cons, hk]

theorem apply_mapping_nil_text : ∀ (m : List (Str × Option Str)), apply_mapping m [] = [] := by
  intro m
  induction m with
  | nil => rfl
  | cons kv rest ih =>
    obtain ⟨k, vOpt⟩ := kv
    match vOpt with
    | none => rw [apply_mapping_cons_none]; exact ih
    | some v =>
      by_cases hk : k = []
      · subst hk
        simpa [apply_mapping, List.foldl_cons] using ih
      · rw [apply_mapping_cons_some k v hk, replaceAll_nil]
        exact ih

/-- Fold of the whole mapping over a well-bracketed paragraph: the result is
again well bracketed, and its tokens are exactly the original tokens minus
every key that carried a value. -/
theorem apply_mapping_chunks :
    ∀ (mapping : List (Str × Option Str)),
      (∀ kv ∈ mapping, IsTok kv.1) →
      (∀ kv ∈ mapping, ∀ v, kv.2 = some v → ∀ c ∈ v, c ≠ '[' ∧ c ≠ ']') →
      ∀ cs : List Chunk, WfChunks cs →
      ∃ cs', apply_mapping mapping (flatChunks cs) = flatChunks cs' ∧ WfChunks cs' ∧
        (∀ t : Str, t ∈ chunkToks cs' ↔
          (t ∈ chunkToks cs ∧ ∀ kv ∈ mapping, kv.2 ≠ none → t ≠ kv.1)) := by
  intro mapping
  induction mapping with
  | nil =>
    intro _ _ cs hwf
    exact ⟨cs, rfl, hwf, by simp⟩
  | cons kv rest ih =>
    intro hkeys hvals cs hwf
    obtain ⟨k, vOpt⟩ := kv
    have hk : IsTok k := hkeys (k, vOpt) (by simp)
    match vOpt with
    | none =>
      obtain ⟨cs', he, hw, hm⟩ := ih (fun kv h => hkeys kv (by simp [h]))
        (fun kv h => hvals kv (by simp [h])) cs hwf
      refine ⟨cs', ?_, hw, ?_⟩
      · rw [apply_mapping_cons_none]
        exact he
      · intro t
        rw [hm t]
        constructor
        · rintro ⟨h1, h2⟩
          refine ⟨h1, ?_⟩
          intro kv hkv hne
          rcases List.mem_cons.mp hkv with rfl | hkv'
          · simp at hne
          · exact h2 kv hkv' hne
        · rintro ⟨h1, h2⟩
          exact ⟨h1, fun kv hkv hne => h2 kv (by simp [hkv]) hne⟩
    | some v =>
      have hv : ∀ c ∈ v, c ≠ '[' ∧ c ≠ ']' := hvals (k, some v) (by simp) v rfl
      obtain ⟨cs', he, hw, hm⟩ := ih (fun kv h => hkeys kv (by simp [h]))
        (fun kv h => hvals kv (by simp [h])) (cs.map (replaceChunk k v))
        (wfChunks_map_replace hv hwf)
      refine ⟨cs', ?_, hw, ?_⟩
      · rw [apply_mapping_cons_some k v hk.ne_nil, replaceAll_chunks hk v cs hwf]
        exact he
      · intro t
        rw [hm t, chunkToks_map_replace]
        rw [List.mem_filter]
        simp only [decide_eq_true_eq]
        constructor
        · rintro ⟨⟨h1, h2⟩, h3⟩
          refine ⟨h1, ?_⟩
          intro kv hkv hne
          rcases List.mem_cons.mp hkv with rfl | hkv'
          · exact h2
          · exact h3 kv hkv' hne
        · rintro ⟨h1, h2⟩
          refine ⟨⟨h1, ?_⟩, ?_⟩
          · exact h2 (k, some v) (by simp) (by simp)
          · intro kv hkv hne
            exact h2 kv (by simp [hkv]) hne

/-- The text effect of `replace_placeholders`: every paragraph text is
rewritten by `_apply_mapping` (the empty-paragraph and unchanged-paragraph
skips are no-ops at the level of resulting text). -/
theorem replace_placeholders_text (doc : Elem) (mapping : List (Str × Option Str)) :
    iterParagraphs (replace_placeholders doc mapping) =
      (iterParagraphs doc).map (apply_mapping mapping) := by
  by_cases hm : mapping = []
  · subst hm
    unfold replace_placeholders
    rw [if_pos rfl]
    have : ∀ t ∈ iterParagraphs doc, t = apply_mapping [] t := fun t _ => rfl
    calc iterParagraphs doc = (iterParagraphs doc).map id := (List.map_id _).symm
    _ = (iterParagraphs doc).map (apply_mapping []) := List.map_congr_left (fun a _ => rfl)
  · unfold replace_placeholders
    rw [if_neg hm, iterParagraphs_mapParas]
    apply List.map_congr_left
    intro t _
    by_cases ht : t = []
    · subst ht
      rw [apply_mapping_nil_text]
      rfl
    · simp only [ht, if_false]
      by_cases hch : apply_mapping mapping t ≠ t
      · simp [hch]
      · simp at hch
        simp [hch]

instance wfChunksDecidable (cs : List Chunk) : Decidable (WfChunks cs) :=
  inferInstanceAs (Decidable (∀ ch ∈ cs, WfChunk ch))

/-- Claim C2 (amended): under well-bracketed paragraphs, token keys and
bracket-free values, substitution is the per-paragraph key-order literal
find-and-replace, mapped keys disappear from a re-extraction, and unmapped
tokens survive. -/
theorem replace_placeholders_spec (doc : Elem) (mapping : List (Str × Option Str))
    (hnn : ∀ kv ∈ mapping, kv.2 ≠ none)
    (hkeys : ∀ kv ∈ mapping, IsTok kv.1)
    (hvals : ∀ kv ∈ mapping, ∀ v, kv.2 = some v → ∀ c ∈ v, c ≠ '[' ∧ c ≠ ']')
    (hwb : ∀ p ∈ iterParagraphs doc, WellBracketed p) :
    iterParagraphs (replace_placeholders doc mapping) =
      (iterParagraphs doc).map (apply_mapping mapping)
    ∧ (∀ kv ∈ mapping, kv.1 ∉ extract_placeholders (replace_placeholders doc mapping))
    ∧ (∀ t, t ∈ extract_placeholders doc → (∀ kv ∈ mapping, t ≠ kv.1) →
        t ∈ extract_placeholders (replace_placeholders doc mapping)) := by
  have htext := replace_placeholders_text doc mapping
  refine ⟨htext, ?_, ?_⟩
  · rintro ⟨k, vOpt⟩ hkv hmem
    have hk : IsTok k := hkeys _ hkv
    obtain ⟨-, q, hq, ho⟩ :=
      ((extract_placeholders_char (replace_placeholders doc mapping)).1 k).mp hmem
    rw [htext] at hq
    obtain ⟨p, hp, rfl⟩ := List.mem_map.mp hq
    obtain ⟨cs, hcs, rfl⟩ := hwb p hp
    obtain ⟨cs', he, hw', hm⟩ := apply_mapping_chunks mapping hkeys hvals cs hcs
    rw [he] at ho
    have h1 := (occurs_tok_flatChunks hk cs' hw').mp ho
    have h2 := (hm k).mp h1
    exact h2.2 (k, vOpt) hkv (hnn _ hkv) rfl
  · intro t hmem hunmapped
    obtain ⟨ht, p, hp, ho⟩ := ((extract_placeholders_char doc).1 t).mp hmem
    obtain ⟨cs, hcs, rfl⟩ := hwb p hp
    obtain ⟨cs', he, hw', hm⟩ := apply_mapping_chunks mapping hkeys hvals cs hcs
    have htoks : t ∈ chunkToks cs := (occurs_tok_flatChunks ht cs hcs).mp ho
    have h2 : t ∈ chunkToks cs' := (hm t).mpr ⟨htoks, fun kv hkv _ => hunmapped kv hkv⟩
    have ho' : Occurs t (flatChunks cs') := (occurs_tok_flatChunks ht cs' hw').mpr h2
    apply ((extract_placeholders_char (replace_placeholders doc mapping)).1 t).mpr
    refine ⟨ht, apply_mapping mapping (flatChunks cs), ?_, ?_⟩
    · rw [htext]
      exact List.mem_map.mpr ⟨flatChunks cs, hp, rfl⟩
    · rw [he]
      exact ho'

/-- The document and mapping of the C2 counterexample: the value of the
only entry contains the entry's own key. -/
def c2CexDoc : Elem := Elem.mk ["[A]".data] []

def c2CexMap : List (Str × Option Str) := [("[A]".data, some "see [A]".data)]

/-- Claim C2 as frozen is false on the code: with the (accepted-edge-case)
mapping `[A] -> "see [A]"`, every entry is non-null and `[A]` matches a
token of the document, yet `extract` after substitution still contains
`[A]`. -/
theorem replace_placeholders_counterexample :
    (∀ kv ∈ c2CexMap, kv.2 ≠ none)
    ∧ "[A]".data ∈ extract_placeholders c2CexDoc
    ∧ "[A]".data ∈ extract_placeholders (replace_placeholders c2CexDoc c2CexMap) := by
  have hpar : iterParagraphs c2CexDoc = ["[A]".data] := by decide
  have htokA : IsTok "[A]".data := by decide
  refine ⟨by decide, ?_, ?_⟩
  · apply ((extract_placeholders_char c2CexDoc).1 _).mpr
    refine ⟨htokA, "[A]".data, by rw [hpar]; simp, occurs_refl _⟩
  · have happ : apply_mapping c2CexMap "[A]".data = "see [A]".data := by
      show apply_mapping (("[A]".data, some "see [A]".data) :: []) "[A]".data = _
      rw [apply_mapping_cons_some _ _ (by decide), apply_mapping_nil_map]
      have h0 : ("[A]".data : Str) = "[A]".data ++ [] := by simp
      nth_rewrite 2 [h0]
      rw [replaceAll_head_match _ _ _ (by decide), replaceAll_nil]
      simp
    apply ((extract_placeholders_char (replace_placeholders c2CexDoc c2CexMap)).1 _).mpr
    refine ⟨htokA, "see [A]".data, ?_, ?_⟩
    · rw [replace_placeholders_text, hpar]
      simp [happ]
    · exact ⟨"see ".data, [], by decide⟩

def c2WitDoc : Elem := Elem.mk ["Dear [Name], your meeting is on [Date]".data] []

def c2WitMap : List (Str × Option Str) := [("[Name]".data, some "Acme".data)]

def c2WitChunks : List Chunk :=
  [Chunk.text "Dear ".data, Chunk.tok "[Name]".data,
   Chunk.text ", your meeting is on ".data, Chunk.tok "[Date]".data]

theorem replace_placeholders_spec_witness :
    ((∀ kv ∈ c2WitMap, kv.2 ≠ none)
      ∧ (∀ kv ∈ c2WitMap, IsTok kv.1)
      ∧ (∀ kv ∈ c2WitMap, ∀ v, kv.2 = some v → ∀ c ∈ v, c ≠ '[' ∧ c ≠ ']')
      ∧ (∀ p ∈ iterParagraphs c2WitDoc, WellBracketed p))
    ∧ (iterParagraphs (replace_placeholders c2WitDoc c2WitMap) =
        (iterParagraphs c2WitDoc).map (apply_mapping c2WitMap)
      ∧ (∀ kv ∈ c2WitMap, kv.1 ∉ extract_placeholders (replace_placeholders c2WitDoc c2WitMap))
      ∧ (∀ t, t ∈ extract_placeholders c2WitDoc → (∀ kv ∈ c2WitMap, t ≠ kv.1) →
          t ∈ extract_placeholders (replace_placeholders c2WitDoc c2WitMap))) := by
  have hwb : ∀ p ∈ iterParagraphs c2WitDoc, WellBracketed p := by
    intro p hp
    have hp' : p = "Dear [Name], your meeting is on [Date]".data := by
      have : iterParagraphs c2WitDoc = ["Dear [Name], your meeting is on [Date]".data] := by
        decide
      rw [this] at hp
      simpa using hp
    subst hp'
    exact ⟨c2WitChunks, by decide, by decide⟩
  exact ⟨⟨by decide, by decide, by decide, hwb⟩,
    replace_placeholders_spec c2WitDoc c2WitMap (by decide) (by decide) (by decide) hwb⟩

/-! ## `src/app.py`: the conversation/workflow controller

The Flask session dict is modelled as an explicit `Session` record; each
route handler becomes a function from request parameters and the current
session to a `HandlerOut` that either carries the mutated session or a
4xx rejection together with the untouched session (`abort` raises before
any state is written in every handler below, exactly as in the source).
Response bodies/HTML rendering are outside the session state and are not
modelled; message strings that enter `chat_history` are.  The float-typed
`progress_pct` (`int((filled / total) * 100) if total else 100`) is the
single field of the derived view that is not modelled: it is computed with
IEEE-754 double arithmetic, which this embedding does not represent. -/

structure ChatTurn where
  role : Str
  text : Str
deriving DecidableEq

structure Session where
  doc_path : Option Str
  doc_name : Option Str
  placeholders : List Str
  mapping : List (Str × Option Str)
  current_key : Option Str
  chat_history : List ChatTurn
  filled_count : Nat
  total_placeholders : Nat
deriving DecidableEq

/-- The state `_reset_state` leaves behind (all workflow keys popped,
empty transcript, zeroed counters). -/
def emptySession : Session :=
  ⟨none, none, [], [], none, [], 0, 0⟩

def reset_state (_s : Session) : Session := emptySession

/-- Python dict lookup distinguishing a missing key from a stored `None`. -/
def dictFind : List (Str × Option Str) → Str → Option (Option Str)
  | [], _ => none
  | (k', v) :: rest, k => if k = k' then some v else dictFind rest k

/-- `mapping.get(key)`: `None` both when the key is absent and when the
stored value is `None`. -/
def pyGet (m : List (Str × Option Str)) (k : Str) : Option Str :=
  match dictFind m k with
  | none => none
  | some v => v

/-- `mapping[key] = value`: update in place when present (keeping the
insertion position), append otherwise. -/
def dictSet : List (Str × Option Str) → Str → Option Str → List (Str × Option Str)
  | [], k, v => [(k, v)]
  | (k', v') :: rest, k, v =>
    if k = k' then (k, v) :: rest else (k', v') :: dictSet rest k v

/-- Truthiness of an optional string (`None` and `""` are falsy). -/
def pyFalsyS (o : Option Str) : Bool :=
  match o with
  | none => true
  | some s => decide (s = [])

/-- `_is_filled`: non-null and non-empty after trimming. -/
def is_filled (value : Option Str) : Bool :=
  match value with
  | none => false
  | some v => decide (pystrip v ≠ [])

/-- `_humanize_placeholder` -/
def humanize_placeholder (placeholder : Str) : Str :=
  if placeholder = [] then []
  else
    let inner := pystrip placeholder
    let inner := if inner.head? = some '[' ∧ inner.getLast? = some ']'
                 then (inner.drop 1).dropLast else inner
    let inner := replaceChar '-' ' ' (replaceChar '_' ' ' inner)
    pystrip (collapseWs inner)

/-- The loop of `_next_key`: first placeholder whose mapping entry is not
filled. -/
def firstUnfilled : List Str → List (Str × Option Str) → Option Str
  | [], _ => none
  | k :: rest, m => if is_filled (pyGet m k) then firstUnfilled rest m else some k

/-- `_next_key`: a truthy current key still in the placeholder list wins;
otherwise the first unfilled placeholder in document order. -/
def next_key (s : Session) : Option Str :=
  match s.current_key with
  | some current =>
    if current ≠ [] ∧ current ∈ s.placeholders then some current
    else firstUnfilled s.placeholders s.mapping
  | none => firstUnfilled s.placeholders s.mapping

structure PlaceholderItem where
  raw : Str
  label : Str
  value : Option Str
  is_filled : Bool
  is_active : Bool
deriving DecidableEq

structure WorkflowState where
  placeholder_items : List PlaceholderItem
  mapping : List (Str × Option Str)
  total : Nat
  filled : Nat
  remaining : Nat
  next_key : Option Str
  active_label : Option Str
  active_raw : Option Str
  active_value : Option Str
  doc_name : Option Str
  has_placeholders : Bool
  has_remaining : Bool
  document_ready : Bool
deriving DecidableEq

/-- `_get_workflow_state`: computes the derived view and writes
`filled_count`, `total_placeholders` and `current_key` back into the
session (lines 147-149 of `app.py`). -/
def get_workflow_state (s : Session) : WorkflowState × Session :=
  let placeholders := s.placeholders
  let mapping := s.mapping
  let nk := next_key s
  let total := placeholders.length
  let filled := (placeholders.filter (fun k => is_filled (pyGet mapping k))).length
  let remaining := total - filled
  let items := placeholders.map (fun k =>
    ({ raw := k,
       label := humanize_placeholder k,
       value := pyGet mapping k,
       is_filled := is_filled (pyGet mapping k),
       is_active := decide (some k = nk) } : PlaceholderItem))
  let s' : Session := { s with filled_count := filled, total_placeholders := total,
                               current_key := nk }
  let active_label : Option Str :=
    match nk with
    | some k => if k ≠ [] then some (humanize_placeholder k) else none
    | none => none
  let active_value : Option Str :=
    match nk with
    | some k => if k ≠ [] then pyGet mapping k else none
    | none => none
  (({ placeholder_items := items,
      mapping := mapping,
      total := total,
      filled := filled,
      remaining := remaining,
      next_key := nk,
      active_label := active_label,
      active_raw := nk,
      active_value := active_value,
      doc_name := s.doc_name,
      has_placeholders := decide (placeholders ≠ []),
      has_remaining := decide (remaining > 0),
      document_ready := !pyFalsyS s.doc_path } : WorkflowState), s')

inductive HandlerOut where
  | err (code : Nat) (s : Session)
  | ok (s : Session)
deriving DecidableEq

def HandlerOut.session : HandlerOut → Session
  | .err _ s => s
  | .ok s => s

/-- The bot turn appended by `answer`. -/
def answer_bot_msg (st : WorkflowState) : Str :=
  let label := st.active_label
  let raw := st.active_raw
  let label_html := if pyFalsyS label then [] else escapeHtml (label.getD [])
  let raw_html := if pyFalsyS raw then [] else escapeHtml (raw.getD [])
  if pyFalsyS st.next_key = false then
    let base := "Got it. Next up: <b>".data ++ label_html ++ "</b>".data
    if ¬ pyFalsyS label ∧ ¬ pyFalsyS raw ∧ label ≠ raw then
      base ++ " <span class=\"muted\">(".data ++ raw_html ++ ")</span>".data
    else base
  else
    "All set! Head to <b>Preview</b> to review or <b>Download</b> your .docx.".data

/-- POST `/answer` -/
def answer (keyParam messageParam : Option Str) (s : Session) : HandlerOut :=
  let msg := pystrip (messageParam.getD [])
  if pyFalsyS keyParam ∨ msg = [] then .err 400 s
  else
    let key := keyParam.getD []
    let placeholders := if key ∈ s.placeholders then s.placeholders
                        else s.placeholders ++ [key]
    let chat1 := s.chat_history ++ [⟨"you".data, msg⟩]
    let val := if msg.head? = some '[' ∧ msg.getLast? = some ']'
               then pystrip ((msg.drop 1).dropLast) else msg
    let mapping := dictSet s.mapping key (some val)
    let s1 : Session := { s with placeholders := placeholders, chat_history := chat1,
                                 mapping := mapping, current_key := none }
    let st := (get_workflow_state s1).1
    let s2 := (get_workflow_state s1).2
    .ok { s2 with chat_history := s2.chat_history ++ [⟨"bot".data, answer_bot_msg st⟩] }

/-- The bot turn appended by `set_current`. -/
def set_current_msg (key : Str) (existing : Option Str) : Str :=
  let friendly_html := escapeHtml (humanize_placeholder key)
  let raw_html := escapeHtml key
  let details := if is_filled existing then
      " Current value: <span class=\"muted\">".data ++ escapeHtml (existing.getD [])
        ++ "</span>.".data
    else []
  "Sure - let's update <b>".data ++ friendly_html ++ "</b> <span class=\"muted\">(".data
    ++ raw_html ++ ")</span>.".data ++ details

/-- POST `/set-current` -/
def set_current (keyParam : Option Str) (s : Session) : HandlerOut :=
  if pyFalsyS keyParam ∨ keyParam.getD [] ∉ s.placeholders then .err 400 s
  else
    let key := keyParam.getD []
    let message := set_current_msg key (pyGet s.mapping key)
    let chat := s.chat_history
    let chat' := if chat = [] ∨ (chat.getLast?.map ChatTurn.text) ≠ some message
                 then chat ++ [⟨"bot".data, message⟩] else chat
    .ok { s with current_key := some key, chat_history := chat' }

/-- The bot turn appended by `clear_answer`. -/
def clear_msg (key : Str) : Str :=
  "Cleared the answer for <b>".data ++ escapeHtml (humanize_placeholder key)
    ++ "</b> <span class=\"muted\">(".data ++ escapeHtml key ++ ")</span>. ".data
    ++ "Let's add it again.".data

/-- POST `/clear-answer` -/
def clear_answer (keyParam : Option Str) (s : Session) : HandlerOut :=
  if pyFalsyS keyParam ∨ keyParam.getD [] ∉ s.placeholders then .err 400 s
  else
    let key := keyParam.getD []
    .ok { s with mapping := dictSet s.mapping key none,
                 current_key := some key,
                 chat_history := s.chat_history ++ [⟨"bot".data, clear_msg key⟩] }

/-- The default intro template of `_initialize_workflow` (the `/upload`
route passes the textually identical template). -/
def default_intro (count : Nat) (plural friendly_first raw_first : Str) : Str :=
  "I found ".data ++ natStr count ++ " placeholder".data ++ plural
    ++ ". Let's start with <b>".data ++ friendly_first
    ++ "</b> <span class=\"muted\">(".data ++ raw_first ++ ")</span>.".data

/-- The intro template passed by `/use-sample`. -/
def sample_intro (count : Nat) (plural friendly_first raw_first : Str) : Str :=
  "Sample SAFE loaded! ".data ++ natStr count ++ " placeholder".data ++ plural
    ++ " ready to fill. Let's start with <b>".data ++ friendly_first
    ++ "</b> <span class=\"muted\">(".data ++ raw_first ++ ")</span>.".data

/-- `_initialize_workflow` -/
def initialize_workflow (doc_path : Str) (placeholders : List Str) (doc_name : Str)
    (intro_template : Option (Nat → Str → Str → Str → Str)) : Session :=
  let s0 : Session := { emptySession with
    doc_path := some doc_path,
    doc_name := some doc_name,
    placeholders := placeholders,
    mapping := placeholders.map (fun ph => (ph, (none : Option Str))),
    total_placeholders := placeholders.length,
    filled_count := 0 }
  match placeholders with
  | first :: _ =>
    let plural := if placeholders.length = 1 then [] else "s".data
    let friendly_first := humanize_placeholder first
    let tmpl := intro_template.getD default_intro
    let lead := tmpl placeholders.length plural friendly_first first
    { s0 with current_key := some first, chat_history := [⟨"bot".data, lead⟩] }
  | [] =>
    { s0 with current_key := none,
              chat_history :=
                [⟨"bot".data,
                  "No placeholders found. You can still preview and download the document.".data⟩] }

/-- One request handled to completion (the transitions that can change the
session). -/
inductive Step : Session → Session → Prop where
  | load (s : Session) (doc : Elem) (dp dn : Str)
      (tmpl : Option (Nat → Str → Str → Str → Str)) :
      Step s (initialize_workflow dp (extract_placeholders doc) dn tmpl)
  | answerOk (s s' : Session) (k m : Option Str) : answer k m s = .ok s' → Step s s'
  | setCurrentOk (s s' : Session) (k : Option Str) : set_current k s = .ok s' → Step s s'
  | clearOk (s s' : Session) (k : Option Str) : clear_answer k s = .ok s' → Step s s'
  | read (s : Session) : Step s (get_workflow_state s).2
  | reset (s : Session) : Step s (reset_state s)

/-- Sessions reachable from a fresh (empty) session. -/
inductive Reachable : Session → Prop where
  | empty : Reachable emptySession
  | step {s s' : Session} : Reachable s → Step s s' → Reachable s'

/-! ## Controller lemmas -/

theorem firstUnfilled_none_iff (L : List Str) (m : List (Str × Option Str)) :
    firstUnfilled L m = none ↔ ∀ k ∈ L, is_filled (pyGet m k) = true := by
  induction L with
  | nil => simp [firstUnfilled]
  | cons k rest ih =>
    by_cases hk : is_filled (pyGet m k) = true
    · simp [firstUnfilled, hk, ih]
    · simp only [firstUnfilled, hk, Bool.false_eq_true, if_false]
      constructor
      · intro h
        cases h
      · intro h
        exact absurd (h k (by simp)) hk

theorem firstUnfilled_some (L : List Str) (m : List (Str × Option Str)) (k : Str)
    (h : firstUnfilled L m = some k) :
    is_filled (pyGet m k) = false
    ∧ ∃ pre post, L = pre ++ k :: post ∧ ∀ j ∈ pre, is_filled (pyGet m j) = true := by
  induction L with
  | nil => simp [firstUnfilled] at h
  | cons x rest ih =>
    by_cases hx : is_filled (pyGet m x) = true
    · rw [firstUnfilled, if_pos hx] at h
      obtain ⟨h1, pre, post, h2, h3⟩ := ih h
      refine ⟨h1, x :: pre, post, by simp [h2], ?_⟩
      intro j hj
      rcases List.mem_cons.mp hj with rfl | hj'
      · exact hx
      · exact h3 j hj'
    · rw [firstUnfilled, if_neg hx] at h
      cases h
      exact ⟨Bool.eq_false_iff.mpr (fun hc => hx hc), [], rest, by simp, by simp⟩

theorem firstUnfilled_mem {L : List Str} {m : List (Str × Option Str)} {k : Str}
    (h : firstUnfilled L m = some k) : k ∈ L := by
  obtain ⟨-, pre, post, h2, -⟩ := firstUnfilled_some L m k h
  simp [h2]

theorem initialize_workflow_placeholders (dp : Str) (phs : List Str) (dn : Str)
    (tmpl : Option (Nat → Str → Str → Str → Str)) :
    (initialize_workflow dp phs dn tmpl).placeholders = phs := by
  match phs with
  | [] => rfl
  | first :: rest => rfl

theorem get_workflow_state_session (s : Session) :
    (get_workflow_state s).2 =
      { s with
        filled_count := (s.placeholders.filter (fun k => is_filled (pyGet s.mapping k))).length,
        total_placeholders := s.placeholders.length,
        current_key := next_key s } := rfl

theorem answer_ok_dest {kp mp : Option Str} {s s' : Session}
    (h : answer kp mp s = .ok s') :
    ∃ key, kp = some key ∧ key ≠ [] ∧
      (s'.placeholders = s.placeholders ∨ s'.placeholders = s.placeholders ++ [key]) := by
  simp only [answer] at h
  split at h
  · cases h
  · next hguard =>
    rw [not_or] at hguard
    obtain ⟨hkey, -⟩ := hguard
    cases kp with
    | none => simp [pyFalsyS] at hkey
    | some key =>
      simp [pyFalsyS] at hkey
      refine ⟨key, rfl, hkey, ?_⟩
      cases h
      by_cases hmem : key ∈ s.placeholders
      · left
        simp [get_workflow_state, hmem]
      · right
        simp [get_workflow_state, hmem]

theorem set_current_ok_dest {kp : Option Str} {s s' : Session}
    (h : set_current kp s = .ok s') :
    s'.placeholders = s.placeholders ∧ s'.mapping = s.mapping := by
  simp only [set_current] at h
  split at h
  · cases h
  · cases h
    exact ⟨rfl, rfl⟩

theorem clear_answer_ok_dest {kp : Option Str} {s s' : Session}
    (h : clear_answer kp s = .ok s') :
    ∃ key, kp = some key ∧ key ∈ s.placeholders ∧ key ≠ [] ∧
      s' = { s with mapping := dictSet s.mapping key none,
                    current_key := some key,
                    chat_history := s.chat_history ++ [⟨"bot".data, clear_msg key⟩] } := by
  simp only [clear_answer] at h
  split at h
  · cases h
  · next hguard =>
    rw [not_or] at hguard
    obtain ⟨hkey, hmem⟩ := hguard
    cases kp with
    | none => simp [pyFalsyS] at hkey
    | some key =>
      simp [pyFalsyS] at hkey
      simp at hmem
      cases h
      exact ⟨key, rfl, hmem, hkey, rfl⟩

/-- In every reachable session the placeholder list contains only
non-empty keys. -/
theorem reachable_placeholder_keys {s : Session} (h : Reachable s) :
    ∀ k ∈ s.placeholders, k ≠ [] := by
  induction h with
  | empty => intro k hk; simp [emptySession] at hk
  | step hr hstep ih =>
    cases hstep with
    | load doc dp dn tmpl =>
      intro k hk
      rw [initialize_workflow_placeholders] at hk
      exact (((extract_placeholders_char doc).1 k).mp hk).1.ne_nil
    | answerOk s' kp mp hok =>
      intro k hk
      obtain ⟨key, -, hkey, hph | hph⟩ := answer_ok_dest hok
      · rw [hph] at hk
        exact ih k hk
      · rw [hph] at hk
        rcases List.mem_append.mp hk with h' | h'
        · exact ih k h'
        · simp at h'
          subst h'
          exact hkey
    | setCurrentOk s' kp hok =>
      intro k hk
      rw [(set_current_ok_dest hok).1] at hk
      exact ih k hk
    | clearOk s' kp hok =>
      intro k hk
      obtain ⟨key, -, -, -, rfl⟩ := clear_answer_ok_dest hok
      exact ih k hk
    | read =>
      intro k hk
      rw [get_workflow_state_session] at hk
      exact ih k hk
    | reset =>
      intro k hk
      simp [reset_state, emptySession] at hk

/-! ## C5: preview text -/

theorem preview_foldl (mapping : List (Str × Option Str)) :
    ∀ (L acc : List Str),
      L.foldl (fun buf text =>
          let updated := apply_mapping mapping text
          if pystrip updated ≠ [] then buf ++ [updated] else buf) acc
      = acc ++ (L.map (apply_mapping mapping)).filter (fun u => decide (pystrip u ≠ [])) := by
  intro L
  induction L with
  | nil => intro acc; simp
  | cons t L ih =>
    intro acc
    rw [List.foldl_cons, ih, List.map_cons, List.filter_cons]
    by_cases hb : pystrip (apply_mapping mapping t) ≠ []
    · simp [hb]
    · simp at hb
      simp [hb]

/-- The preview equals the blank-line-join of the non-blank per-paragraph
substitution results. -/
theorem build_preview_filter_map (doc : Elem) (mapping : List (Str × Option Str)) :
    build_preview_text doc mapping =
      List.intercalate "\n\n".data
        (((iterParagraphs doc).map (apply_mapping mapping)).filter
          (fun u => decide (pystrip u ≠ []))) := by
  unfold build_preview_text
  rw [preview_foldl]
  simp

/-- Claim C5 (amended): the preview is the concatenation, in document
order with a blank-line separator, of exactly those per-paragraph
substitution results that are non-blank; every paragraph whose text is
blank after substitution is omitted. -/
theorem build_preview_text_spec (doc : Elem) (mapping : List (Str × Option Str)) :
    build_preview_text doc mapping =
      List.intercalate "\n\n".data
        (((iterParagraphs doc).map (apply_mapping mapping)).filter
          (fun u => decide (pystrip u ≠ []))) :=
  build_preview_filter_map doc mapping

def c5Doc : Elem := Elem.mk [" ".data] []

def c5Map : List (Str × Option Str) := [(" ".data, some "x".data)]

/-- Claim C5 as frozen is false on the code: a paragraph that was already blank
(a single space) is not omitted when a mapping entry rewrites it to
non-blank text — the whole preview is its substitution result. -/
theorem build_preview_counterexample :
    pystrip " ".data = [] ∧ build_preview_text c5Doc c5Map = "x".data := by
  refine ⟨by decide, ?_⟩
  rw [build_preview_filter_map]
  have hpar : iterParagraphs c5Doc = [" ".data] := by decide
  have happ : apply_mapping c5Map " ".data = "x".data := by
    show apply_mapping ((" ".data, some "x".data) :: []) " ".data = _
    rw [apply_mapping_cons_some _ _ (by decide), apply_mapping_nil_map]
    have h0 : (" ".data : Str) = " ".data ++ [] := by simp
    nth_rewrite 2 [h0]
    rw [replaceAll_head_match _ _ _ (by decide), replaceAll_nil]
    simp
  rw [hpar]
  simp only [List.map_cons, List.map_nil, happ]
  decide

/-! ## C3: the current-question pointer invariant -/

/-- Claim C3: in every reachable session, an explicitly stored current key
that is still a member of the placeholder list takes precedence: the
derived pointer (`_next_key`) is exactly that key, never overridden by
auto-advance; when the stored key is gone from the list the pointer falls
back to the auto-advance rule; the pointer is `None` only when every
placeholder's entry is filled; and whenever it points at a key, that key
is either the stored current key (still a member) or the first placeholder
in document order whose mapping entry is unfilled. -/
theorem current_pointer_invariant (s : Session) (hreach : Reachable s) :
    (∀ c, s.current_key = some c → c ≠ [] → c ∈ s.placeholders → next_key s = some c)
    ∧ (∀ c, s.current_key = some c → c ∉ s.placeholders →
        next_key s = firstUnfilled s.placeholders s.mapping)
    ∧ (next_key s = none → ∀ k ∈ s.placeholders, is_filled (pyGet s.mapping k) = true)
    ∧ (∀ k, next_key s = some k →
        (s.current_key = some k ∧ k ∈ s.placeholders)
        ∨ (is_filled (pyGet s.mapping k) = false
            ∧ ∃ pre post, s.placeholders = pre ++ k :: post
              ∧ ∀ j ∈ pre, is_filled (pyGet s.mapping j) = true)) := by
  refine ⟨?_, ?_, ?_, ?_⟩
  · intro c hc hne hmem
    simp only [next_key, hc]
    rw [if_pos ⟨hne, hmem⟩]
  · intro c hc hnm
    simp only [next_key, hc]
    rw [if_neg (fun h => hnm h.2)]
  · rcases hc : s.current_key with _ | current
    · have hnk : next_key s = firstUnfilled s.placeholders s.mapping := by
        simp only [next_key, hc]
      intro hnone
      rw [hnk] at hnone
      exact (firstUnfilled_none_iff _ _).mp hnone
    · by_cases hcond : current ≠ [] ∧ current ∈ s.placeholders
      · have hnk : next_key s = some current := by
          simp only [next_key, hc, if_pos hcond]
        intro hnone
        rw [hnk] at hnone
        cases hnone
      · have hnk : next_key s = firstUnfilled s.placeholders s.mapping := by
          simp only [next_key, hc, if_neg hcond]
        intro hnone
        rw [hnk] at hnone
        exact (firstUnfilled_none_iff _ _).mp hnone
  · rcases hc : s.current_key with _ | current
    · have hnk : next_key s = firstUnfilled s.placeholders s.mapping := by
        simp only [next_key, hc]
      intro k hsome
      rw [hnk] at hsome
      exact Or.inr (firstUnfilled_some _ _ _ hsome)
    · by_cases hcond : current ≠ [] ∧ current ∈ s.placeholders
      · have hnk : next_key s = some current := by
          simp only [next_key, hc, if_pos hcond]
        intro k hsome
        rw [hnk] at hsome
        cases hsome
        exact Or.inl ⟨rfl, hcond.2⟩
      · have hnk : next_key s = firstUnfilled s.placeholders s.mapping := by
          simp only [next_key, hc, if_neg hcond]
        intro k hsome
        rw [hnk] at hsome
        exact Or.inr (firstUnfilled_some _ _ _ hsome)

/-- Evaluation helper for one-paragraph documents. -/
theorem extract_singleton_doc (p : Str) :
    extract_placeholders (Elem.mk [p] []) =
      ((scanPH p).map pystrip).foldl insertOrdered [] := by
  unfold extract_placeholders matchStream
  rw [show iterParagraphs (Elem.mk [p] []) = [p] from by
    simp [iterParagraphs, iterTables]]
  simp

def c3Doc : Elem := Elem.mk ["[Name]".data] []

def c3Start : Session := initialize_workflow "p".data ["[Name]".data] "d".data none

theorem c3Doc_extract : extract_placeholders c3Doc = ["[Name]".data] := by
  have h1 : scanPH "[Name]".data = ["[Name]".data] := by
    simp [scanPH, parseRun]
  show extract_placeholders (Elem.mk ["[Name]".data] []) = _
  rw [extract_singleton_doc, h1]
  decide

theorem c3Start_reachable : Reachable c3Start := by
  have h := Step.load emptySession c3Doc "p".data "d".data none
  rw [c3Doc_extract] at h
  exact Reachable.step Reachable.empty h

theorem current_pointer_invariant_witness :
    (∀ c, c3Start.current_key = some c → c ≠ [] → c ∈ c3Start.placeholders →
      next_key c3Start = some c)
    ∧ (∀ c, c3Start.current_key = some c → c ∉ c3Start.placeholders →
        next_key c3Start = firstUnfilled c3Start.placeholders c3Start.mapping)
    ∧ (next_key c3Start = none →
        ∀ k ∈ c3Start.placeholders, is_filled (pyGet c3Start.mapping k) = true)
    ∧ (∀ k, next_key c3Start = some k →
        (c3Start.current_key = some k ∧ k ∈ c3Start.placeholders)
        ∨ (is_filled (pyGet c3Start.mapping k) = false
            ∧ ∃ pre post, c3Start.placeholders = pre ++ k :: post
              ∧ ∀ j ∈ pre, is_filled (pyGet c3Start.mapping j) = true)) :=
  current_pointer_invariant c3Start c3Start_reachable

/-! ## C6, C7, C9, C10: the answer/set-current/clear transitions -/

theorem dictFind_dictSet_self : ∀ (m : List (Str × Option Str)) (k : Str) (v : Option Str),
    dictFind (dictSet m k v) k = some v := by
  intro m k v
  induction m with
  | nil => simp [dictSet, dictFind]
  | cons kv rest ih =>
    obtain ⟨k', v'⟩ := kv
    by_cases hk : k = k'
    · simp [dictSet, hk, dictFind]
    · simp [dictSet, hk, dictFind, ih]

theorem pyGet_dictSet_self (m : List (Str × Option Str)) (k : Str) (v : Option Str) :
    pyGet (dictSet m k v) k = v := by
  unfold pyGet
  rw [dictFind_dictSet_self]

theorem answer_guard_neg {key : Str} {messageParam : Option Str}
    (hkne : key ≠ []) (hne : pystrip (messageParam.getD []) ≠ []) :
    ¬(pyFalsyS (some key) = true ∨ pystrip (messageParam.getD []) = []) := by
  rintro (h1 | h2)
  · simp [pyFalsyS, hkne] at h1
  · exact hne h2

/-- The success branch of `answer`, spelled out. -/
theorem answer_ok_eq (key : Str) (messageParam : Option Str) (s : Session)
    (hkne : key ≠ []) (hne : pystrip (messageParam.getD []) ≠ []) :
    answer (some key) messageParam s =
      (let msg := pystrip (messageParam.getD [])
       let placeholders := if key ∈ s.placeholders then s.placeholders
                           else s.placeholders ++ [key]
       let val := if msg.head? = some '[' ∧ msg.getLast? = some ']'
                  then pystrip ((msg.drop 1).dropLast) else msg
       let s1 : Session := { s with placeholders := placeholders,
                                    chat_history := s.chat_history ++ [⟨"you".data, msg⟩],
                                    mapping := dictSet s.mapping key (some val),
                                    current_key := none }
       .ok { (get_workflow_state s1).2 with
             chat_history := ((get_workflow_state s1).2).chat_history
               ++ [⟨"bot".data, answer_bot_msg (get_workflow_state s1).1⟩] }) := by
  unfold answer
  rw [if_neg (answer_guard_neg hkne hne)]
  rfl

/-- Claim C6: when the trimmed submitted value is bracket-wrapped, exactly one
layer of surrounding brackets is removed (plus the inner trim the code
performs) before the value is recorded; only the submitted key's entry is
written. -/
theorem answer_strips_brackets (s : Session) (messageParam : Option Str) (key : Str)
    (hkne : key ≠ [])
    (hbr : (pystrip (messageParam.getD [])).head? = some '['
           ∧ (pystrip (messageParam.getD [])).getLast? = some ']') :
    ∃ s', answer (some key) messageParam s = .ok s'
      ∧ pyGet s'.mapping key =
          some (pystrip (((pystrip (messageParam.getD [])).drop 1).dropLast)) := by
  have hne : pystrip (messageParam.getD []) ≠ [] := by
    intro h
    rw [h] at hbr
    cases hbr.1
  rw [answer_ok_eq key messageParam s hkne hne]
  simp only [hbr, and_self, if_true, if_pos]
  refine ⟨_, rfl, ?_⟩
  show pyGet (dictSet s.mapping key _) key = _
  rw [pyGet_dictSet_self]

theorem answer_strips_brackets_witness :
    (("[Company]".data : Str) ≠ []
      ∧ (pystrip ((some "[Acme Inc]".data).getD [])).head? = some '['
      ∧ (pystrip ((some "[Acme Inc]".data).getD [])).getLast? = some ']')
    ∧ (∃ s', answer (some "[Company]".data) (some "[Acme Inc]".data) emptySession = .ok s'
        ∧ pyGet s'.mapping "[Company]".data =
            some (pystrip (((pystrip ((some "[Acme Inc]".data).getD [])).drop 1).dropLast)))
    ∧ pystrip (((pystrip ((some "[Acme Inc]".data).getD [])).drop 1).dropLast) = "Acme Inc".data :=
  ⟨⟨by decide, by decide, by decide⟩,
    answer_strips_brackets emptySession (some "[Acme Inc]".data) "[Company]".data
      (by decide) ⟨by decide, by decide⟩,
    by decide⟩

/-- Claim C7: clearing a key that exists in a reachable session nulls its entry,
makes it the current question (both the stored pointer and the derived
one), and leaves the placeholder list and total count unchanged. -/
theorem clear_answer_spec (s : Session) (key : Str) (hreach : Reachable s)
    (hmem : key ∈ s.placeholders) :
    ∃ s', clear_answer (some key) s = .ok s'
      ∧ dictFind s'.mapping key = some none
      ∧ s'.current_key = some key
      ∧ next_key s' = some key
      ∧ s'.placeholders = s.placeholders
      ∧ s'.total_placeholders = s.total_placeholders := by
  have hkne : key ≠ [] := reachable_placeholder_keys hreach key hmem
  have hguard : ¬(pyFalsyS (some key) = true ∨ (some key).getD [] ∉ s.placeholders) := by
    rintro (h1 | h2)
    · simp [pyFalsyS, hkne] at h1
    · simp at h2
      exact h2 hmem
  unfold clear_answer
  rw [if_neg hguard]
  refine ⟨_, rfl, ?_, rfl, ?_, rfl, rfl⟩
  · show dictFind (dictSet s.mapping key none) key = some none
    rw [dictFind_dictSet_self]
  · show next_key { s with mapping := dictSet s.mapping key none,
                           current_key := some key,
                           chat_history := s.chat_history
                             ++ [⟨"bot".data, clear_msg key⟩] } = some key
    simp only [next_key]
    rw [if_pos ⟨hkne, hmem⟩]

def c7Doc : Elem := Elem.mk ["[Date]".data] []

def c7Start : Session := initialize_workflow "p".data ["[Date]".data] "d".data none

theorem c7Start_reachable : Reachable c7Start := by
  have h1 : scanPH "[Date]".data = ["[Date]".data] := by
    simp [scanPH, parseRun]
  have hex : extract_placeholders c7Doc = ["[Date]".data] := by
    show extract_placeholders (Elem.mk ["[Date]".data] []) = _
    rw [extract_singleton_doc, h1]
    decide
  have h := Step.load emptySession c7Doc "p".data "d".data none
  rw [hex] at h
  exact Reachable.step Reachable.empty h

theorem clear_answer_spec_witness :
    ("[Date]".data ∈ c7Start.placeholders)
    ∧ (∃ s', clear_answer (some "[Date]".data) c7Start = .ok s'
        ∧ dictFind s'.mapping "[Date]".data = some none
        ∧ s'.current_key = some "[Date]".data
        ∧ next_key s' = some "[Date]".data
        ∧ s'.placeholders = c7Start.placeholders
        ∧ s'.total_placeholders = c7Start.total_placeholders) :=
  ⟨by decide, clear_answer_spec c7Start "[Date]".data c7Start_reachable (by decide)⟩

/-- Claim C9: a missing/empty key, an empty trimmed value (for `answer`), or a
key outside the placeholder list (for `set-current`/`clear`) is rejected
with 400 and the handler returns the session exactly as it received it. -/
theorem client_error_no_mutation (s : Session) (keyParam messageParam : Option Str) :
    ((pyFalsyS keyParam = true ∨ pystrip (messageParam.getD []) = []) →
      answer keyParam messageParam s = .err 400 s)
    ∧ ((pyFalsyS keyParam = true ∨ keyParam.getD [] ∉ s.placeholders) →
      set_current keyParam s = .err 400 s)
    ∧ ((pyFalsyS keyParam = true ∨ keyParam.getD [] ∉ s.placeholders) →
      clear_answer keyParam s = .err 400 s) := by
  refine ⟨?_, ?_, ?_⟩
  · intro h
    unfold answer
    rw [if_pos h]
  · intro h
    unfold set_current
    rw [if_pos h]
  · intro h
    unfold clear_answer
    rw [if_pos h]

theorem client_error_no_mutation_witness :
    answer none none emptySession = .err 400 emptySession
    ∧ set_current (some "[X]".data) emptySession = .err 400 emptySession
    ∧ clear_answer none emptySession = .err 400 emptySession :=
  ⟨(client_error_no_mutation emptySession none none).1 (Or.inl rfl),
   (client_error_no_mutation emptySession (some "[X]".data) none).2.1
     (Or.inr (by decide)),
   (client_error_no_mutation emptySession none none).2.2 (Or.inl rfl)⟩

def c10Start : Session :=
  ⟨some "p".data, some "d".data, ["[Name]".data], [("[Name]".data, none)],
   some "[Name]".data, [], 0, 1⟩

/-- Claim C10: the submission `[ ]` passes the non-empty check, is stored as the
empty string after bracket stripping and trimming, leaves the placeholder
unfilled, and the auto-advance pointer returns to the same key. -/
theorem answer_whitespace_brackets_unfilled :
    ∃ s', answer (some "[Name]".data) (some "[ ]".data) c10Start = .ok s'
      ∧ pystrip ((some "[ ]".data).getD []) ≠ []
      ∧ pyGet s'.mapping "[Name]".data = some []
      ∧ is_filled (pyGet s'.mapping "[Name]".data) = false
      ∧ next_key s' = some "[Name]".data
      ∧ s'.current_key = some "[Name]".data := by
  refine ⟨(answer (some "[Name]".data) (some "[ ]".data) c10Start).session,
    ?_, by decide, ?_, ?_, ?_, ?_⟩ <;> decide

/-! ## C8: the derived view and what a read writes back -/

/-- Claim C8 (amended): the derived view is recomputed on every read; a read
leaves the placeholder list, mapping, transcript and document fields
unchanged, but `_get_workflow_state` writes the recomputed filled count,
total and derived pointer back into the session. -/
theorem get_workflow_state_frame (s : Session) :
    ((get_workflow_state s).2).placeholders = s.placeholders
    ∧ ((get_workflow_state s).2).mapping = s.mapping
    ∧ ((get_workflow_state s).2).chat_history = s.chat_history
    ∧ ((get_workflow_state s).2).doc_path = s.doc_path
    ∧ ((get_workflow_state s).2).doc_name = s.doc_name
    ∧ ((get_workflow_state s).2).filled_count =
        (s.placeholders.filter (fun k => is_filled (pyGet s.mapping k))).length
    ∧ ((get_workflow_state s).2).total_placeholders = s.placeholders.length
    ∧ ((get_workflow_state s).2).current_key = next_key s :=
  ⟨rfl, rfl, rfl, rfl, rfl, rfl, rfl, rfl⟩

def c8Doc : Elem := Elem.mk ["[Name]".data] []

def c8Start : Session := initialize_workflow "p".data ["[Name]".data] "d".data none

def c8Mid : Session := (answer (some "[Name]".data) (some "X".data) c8Start).session

def c8Sess : Session := (clear_answer (some "[Name]".data) c8Mid).session

theorem c8Sess_reachable : Reachable c8Sess := by
  have h1 : scanPH "[Name]".data = ["[Name]".data] := by
    simp [scanPH, parseRun]
  have hex : extract_placeholders c8Doc = ["[Name]".data] := by
    show extract_placeholders (Elem.mk ["[Name]".data] []) = _
    rw [extract_singleton_doc, h1]
    decide
  have hload := Step.load emptySession c8Doc "p".data "d".data none
  rw [hex] at hload
  have hstart : Reachable c8Start := Reachable.step Reachable.empty hload
  have ha : answer (some "[Name]".data) (some "X".data) c8Start = .ok c8Mid := by decide
  have hmid : Reachable c8Mid :=
    Reachable.step hstart (Step.answerOk c8Start c8Mid (some "[Name]".data) (some "X".data) ha)
  have hc : clear_answer (some "[Name]".data) c8Mid = .ok c8Sess := by decide
  exact Reachable.step hmid (Step.clearOk c8Mid c8Sess (some "[Name]".data) hc)

/-- Claim C8 as frozen is false on the code: in the reachable session obtained by
loading a one-placeholder document, answering it and then clearing it,
computing the derived view changes the session (the cached filled count is
rewritten from 1 to 0). -/
theorem get_workflow_state_counterexample :
    Reachable c8Sess
    ∧ (get_workflow_state c8Sess).2 ≠ c8Sess
    ∧ c8Sess.filled_count = 1
    ∧ ((get_workflow_state c8Sess).2).filled_count = 0 :=
  ⟨c8Sess_reachable, by decide, by decide, by decide⟩
